import Mathlib

/-!
Verification of the ALPAO deformable-mirror command pipeline
(`runALPAO.c`): the normalization / unit-conversion / bias-removal /
safety-clipping stages, the actuator-mapping raster scan, the
calibration-file loader, the control loop's shutdown and error
behaviour, and the shared-memory initialization.

The C `Scalar` type (`double`) is embedded as `ℚ`, so all stage
algebra is exact.  Side effects (saturation warnings, semaphore
operations, SDK calls) are made explicit as returned lists of events.
-/

/-- The ALPAO SDK scalar type (`Scalar = double` in the C source),
embedded as an exact rational. -/
abbrev Scalar := ℚ

/-- Per-element clamp performed by `clip_to_limits`: values above `1`
become `1`, values below `-1` become `-1`, others pass through. -/
def clipStep (x : Scalar) : Scalar :=
  if x > 1 then 1 else if x < -1 then -1 else x

/-- Recursive body of `clip_to_limits` (runALPAO.c lines 111-127).
`idx` is the loop counter; the second component collects the actuator
numbers printed by the saturation warnings (the C code prints
`idx + 1`). -/
def clip_to_limits_go : List Scalar → ℕ → List Scalar × List ℕ
  | [], _ => ([], [])
  | x :: xs, idx =>
    let rest := clip_to_limits_go xs (idx + 1)
    if x > 1 then (1 :: rest.1, (idx + 1) :: rest.2)
    else if x < -1 then ((-1 : Scalar) :: rest.1, (idx + 1) :: rest.2)
    else (x :: rest.1, rest.2)

/-- Embeds `clip_to_limits` (runALPAO.c lines 111-127): clamp every actuator
input to `[-1, 1]`, emitting one saturation warning (carrying the
1-based actuator number `idx + 1`) per clipped element. -/
def clip_to_limits (dminputs : List Scalar) : List Scalar × List ℕ :=
  clip_to_limits_go dminputs 0

/-- Embeds `microns_to_fractional_stroke` (runALPAO.c lines 132-140): divide
every actuator stroke by `max_stroke`. -/
def microns_to_fractional_stroke (dminputs : List Scalar) (max_stroke : Scalar) :
    List Scalar :=
  dminputs.map (fun x => x / max_stroke)

/-- Embeds `normalize_inputs` (runALPAO.c lines 146-154): multiply every
actuator stroke by `volume_factor`. -/
def normalize_inputs (dminputs : List Scalar) (volume_factor : Scalar) :
    List Scalar :=
  dminputs.map (fun x => x * volume_factor)

/-- Embeds `bias_inputs` (runALPAO.c lines 157-175): compute the arithmetic
mean of the inputs and subtract it from every element. -/
def bias_inputs (dminputs : List Scalar) : List Scalar :=
  let mean : Scalar := dminputs.sum / (dminputs.length : Scalar)
  dminputs.map (fun x => x - mean)

/-- Embeds `sendCommand` (runALPAO.c lines 316-366), up to the `asdkSend`
call: extract `dminputs[idx] = frame[actuator_mapping[idx]]`, then run
the four pipeline stages in the source's order, gated by the
`nonorm` / `fractional` / `nobias` switches (the C `int` flags are
`Bool` here; `flag ≠ 1` becomes `¬flag`).  Returns the vector handed
to `asdkSend` together with the saturation warnings. -/
def sendCommand (frame : List Scalar) (actuator_mapping : List ℕ) (nbAct : ℕ)
    (nobias nonorm fractional : Bool) (max_stroke volume_factor : Scalar) :
    List Scalar × List ℕ :=
  let dminputs := (List.range nbAct).map
    (fun idx => frame.getD (actuator_mapping.getD idx 0) 0)
  let d1 := if nonorm then dminputs else normalize_inputs dminputs volume_factor
  let d2 := if fractional then d1 else microns_to_fractional_stroke d1 max_stroke
  let d3 := if nobias then d2 else bias_inputs d2
  clip_to_limits d3

/- Closed forms for the clipping recursion. -/

/-- The value component of the clip loop is an elementwise clamp. -/
theorem clip_to_limits_go_fst (l : List Scalar) (idx : ℕ) :
    (clip_to_limits_go l idx).1 = l.map clipStep := by
  induction l generalizing idx with
  | nil => rfl
  | cons x xs ih =>
    simp only [clip_to_limits_go, clipStep, List.map_cons]
    split
    · simp [ih]
    · split
      · simp [ih]
      · simp [ih]

/-- Every warning emitted by the clip loop carries a number strictly
above the starting counter `idx`. -/
theorem clip_to_limits_go_warn_lb (l : List Scalar) (idx : ℕ) :
    ∀ w ∈ (clip_to_limits_go l idx).2, idx + 1 ≤ w := by
  induction l generalizing idx with
  | nil => intro w hw; simp [clip_to_limits_go] at hw
  | cons x xs ih =>
    intro w hw
    simp only [clip_to_limits_go] at hw
    split at hw
    · rcases List.mem_cons.mp hw with h | h
      · omega
      · have := ih (idx + 1) w h; omega
    · split at hw
      · rcases List.mem_cons.mp hw with h | h
        · omega
        · have := ih (idx + 1) w h; omega
      · have := ih (idx + 1) w hw; omega

/-- The clip loop emits the warning number `idx + i + 1` exactly once
when position `i` is saturated (magnitude above `1`), and never
otherwise. -/
theorem clip_to_limits_go_count (l : List Scalar) (idx : ℕ) (i : ℕ)
    (h : i < l.length) :
    (clip_to_limits_go l idx).2.count (idx + i + 1) =
      if 1 < |l.getD i 0| then 1 else 0 := by
  induction l generalizing idx i with
  | nil => simp at h
  | cons x xs ih =>
    cases i with
    | zero =>
      have hrest : (clip_to_limits_go xs (idx + 1)).2.count (idx + 0 + 1) = 0 := by
        rw [List.count_eq_zero]
        intro hmem
        have := clip_to_limits_go_warn_lb xs (idx + 1) _ hmem
        omega
      simp only [clip_to_limits_go, List.getD_cons_zero]
      by_cases h1 : x > 1
      · have hx : 1 < |x| := lt_of_lt_of_le h1 (le_abs_self x)
        simp [h1, hx, List.count_cons, hrest]
      · by_cases h2 : x < -1
        · have hx : 1 < |x| := lt_of_lt_of_le (by linarith) (neg_le_abs x)
          simp [h1, h2, hx, List.count_cons, hrest]
        · have hx : ¬ (1 < |x|) := by
            rw [not_lt, abs_le]
            exact ⟨le_of_not_lt h2, le_of_not_lt h1⟩
          simp [h1, h2, hx, hrest]
    | succ j =>
      have hj : j < xs.length := by simpa using h
      have hne : idx + 1 ≠ idx + (j + 1) + 1 := by omega
      have hrec := ih (idx + 1) j hj
      have harith : idx + 1 + j + 1 = idx + (j + 1) + 1 := by omega
      rw [harith] at hrec
      simp only [clip_to_limits_go, List.getD_cons_succ]
      by_cases h1 : x > 1
      · simp only [if_pos h1, List.count_cons, if_neg (by omega : ¬ (idx + (j+1) + 1 = idx + 1))]
        simpa using hrec
      · by_cases h2 : x < -1
        · simp only [if_neg h1, if_pos h2, List.count_cons,
            if_neg (by omega : ¬ (idx + (j+1) + 1 = idx + 1))]
          simpa using hrec
        · simp only [if_neg h1, if_neg h2]
          exact hrec

/-- Elementwise clamping always lands in `[-1, 1]`. -/
theorem clipStep_mem (x : Scalar) : -1 ≤ clipStep x ∧ clipStep x ≤ 1 := by
  unfold clipStep
  split
  next h => norm_num
  next h =>
    split
    next h2 => norm_num
    next h2 => exact ⟨le_of_not_lt h2, le_of_not_lt h⟩

/-- Elementwise clamping is idempotent. -/
theorem clipStep_idem (x : Scalar) : clipStep (clipStep x) = clipStep x := by
  obtain ⟨hl, hr⟩ := clipStep_mem x
  have h1 : ¬ (clipStep x > 1) := not_lt.mpr hr
  have h2 : ¬ (clipStep x < -1) := not_lt.mpr hl
  show (if clipStep x > 1 then 1 else if clipStep x < -1 then -1 else clipStep x)
      = clipStep x
  rw [if_neg h1, if_neg h2]

/-- Sum of a constant-shifted list. -/
theorem sum_map_sub_const (l : List Scalar) (m : Scalar) :
    (l.map (fun x => x - m)).sum = l.sum - (l.length : Scalar) * m := by
  induction l with
  | nil => simp
  | cons x xs ih =>
    simp only [List.map_cons, List.sum_cons, List.length_cons, ih]
    push_cast
    ring

/-- C1: for every input vector, after `clip_to_limits` every element of
the vector dispatched to the device lies in `[-1, 1]`, and the warning
number `i + 1` (the source prints actuator `idx + 1`) is emitted exactly
once for each index `i` whose pre-clip value has magnitude above `1`,
and never for the others. -/
theorem clip_to_limits_safe_unique_warnings (l : List Scalar) (i : ℕ)
    (h : i < l.length) :
    (∀ x ∈ (clip_to_limits l).1, -1 ≤ x ∧ x ≤ 1) ∧
    (clip_to_limits l).2.count (i + 1) =
      (if 1 < |l.getD i 0| then 1 else 0) := by
  constructor
  · intro x hx
    rw [clip_to_limits, clip_to_limits_go_fst] at hx
    obtain ⟨y, _, rfl⟩ := List.mem_map.mp hx
    exact clipStep_mem y
  · have hc := clip_to_limits_go_count l 0 i h
    simpa using hc

/-- Concrete run of the clipping theorem: input `[2, -3/2, 1/2]`,
actuator `0` saturates and is warned about exactly once. -/
theorem clip_to_limits_safe_unique_warnings_witness :
    0 < ([2, -(3/2), (1/2 : Scalar)] : List Scalar).length ∧
    ((∀ x ∈ (clip_to_limits [2, -(3/2), (1/2 : Scalar)]).1, -1 ≤ x ∧ x ≤ 1) ∧
     (clip_to_limits [2, -(3/2), (1/2 : Scalar)]).2.count (0 + 1) =
       (if 1 < |([2, -(3/2), (1/2 : Scalar)] : List Scalar).getD 0 0| then 1 else 0)) :=
  ⟨by decide, clip_to_limits_safe_unique_warnings [2, -(3/2), (1/2 : Scalar)] 0 (by decide)⟩

/-- C8: for every non-empty input vector, after `bias_inputs` the
arithmetic mean of the vector is exactly `0` (exact rational
arithmetic). -/
theorem bias_inputs_mean_zero (l : List Scalar) (h : l ≠ []) :
    (bias_inputs l).sum / ((bias_inputs l).length : Scalar) = 0 := by
  have hn : (l.length : Scalar) ≠ 0 := by
    have : l.length ≠ 0 := fun hc => h (List.length_eq_zero.mp hc)
    exact_mod_cast this
  have hsum : (bias_inputs l).sum = 0 := by
    rw [bias_inputs]
    rw [sum_map_sub_const]
    rw [mul_comm, div_mul_cancel₀ _ hn]
    ring
  rw [hsum, zero_div]

/-- Concrete run of the bias-removal theorem on `[1, 2, 3]`. -/
theorem bias_inputs_mean_zero_witness :
    ([1, 2, (3 : Scalar)] : List Scalar) ≠ [] ∧
    (bias_inputs [1, 2, (3 : Scalar)]).sum /
      ((bias_inputs [1, 2, (3 : Scalar)]).length : Scalar) = 0 :=
  ⟨by decide, bias_inputs_mean_zero [1, 2, (3 : Scalar)] (by decide)⟩

/-- C9: applying `clip_to_limits` twice yields the same vector as
applying it once — re-clipping an already-clipped vector is a no-op. -/
theorem clip_to_limits_idempotent (l : List Scalar) :
    (clip_to_limits (clip_to_limits l).1).1 = (clip_to_limits l).1 := by
  rw [clip_to_limits, clip_to_limits, clip_to_limits_go_fst,
    clip_to_limits_go_fst, List.map_map]
  apply List.map_congr_left
  intro x _
  exact clipStep_idem x

/-- Scan of one mask row by `get_actuator_mapping` (runALPAO.c lines
295-300): emit `r * width + ii` for each column `ii` whose pixel value
is strictly positive, left to right.  `r` is the 0-based row index
(`fpixel[1] - 1` in the source). -/
def actuator_row_scan (row : List Int) (r width : ℕ) : List ℕ :=
  (List.range width).filterMap
    (fun ii => if 0 < row.getD ii 0 then some (r * width + ii) else none)

/-- Abstraction of the mapping FITS file as `get_actuator_mapping`
observes it: the open call can fail, the primary HDU can be a table,
or it is an image with a declared axis count, a row width
(`naxes[0]`) and a grid of integer pixel rows (row 1 of the file is
the head of the list). -/
inductive FitsFile
  | unopenable
  | table
  | image (naxis : ℕ) (width : ℕ) (grid : List (List Int))

/-- Embeds `get_actuator_mapping` (runALPAO.c lines 232-313): returns the C
function's status value together with the mapping entries it wrote.
Faithful to the source's control flow: when `fits_open_image` fails
the whole processing block is skipped and the function still returns
`0`; a table HDU or a non-2-D image returns `1`; otherwise rows are
scanned from the last (`fpixel[1] = naxes[1]`) down to the first. -/
def get_actuator_mapping (f : FitsFile) : Int × List ℕ :=
  match f with
  | .unopenable => (0, [])
  | .table => (1, [])
  | .image naxis width grid =>
    if naxis ≠ 2 then (1, [])
    else (0, ((List.range grid.length).reverse).flatMap
      (fun r => actuator_row_scan (grid.getD r []) r width))

/-- A `filterMap` by a guarded `some` is a `filter` then `map`. -/
theorem filterMap_guard {α β : Type} (l : List α) (p : α → Prop)
    [DecidablePred p] (f : α → β) :
    l.filterMap (fun i => if p i then some (f i) else none) =
      (l.filter (fun i => decide (p i))).map f := by
  induction l with
  | nil => rfl
  | cons a l ih =>
    by_cases hp : p a
    · simp [List.filterMap_cons, List.filter_cons, hp, ih]
    · simp [List.filterMap_cons, List.filter_cons, hp, ih]

/-- Counting positions of `range` that hold a positive entry counts
the positive entries themselves. -/
theorem length_filter_range_getD (row : List Int) :
    ((List.range row.length).filter
      (fun ii => decide (0 < row.getD ii 0))).length =
      row.countP (fun v => decide (0 < v)) := by
  induction row with
  | nil => rfl
  | cons x xs ih =>
    simp only [List.length_cons, List.range_succ_eq_map, List.filter_cons,
      List.getD_cons_zero, List.filter_map, List.countP_cons]
    have hcomp : ((fun ii => decide (0 < (x :: xs).getD ii 0)) ∘ Nat.succ) =
        (fun ii => decide (0 < xs.getD ii 0)) := by
      funext ii
      simp [List.getD_cons_succ]
    rw [hcomp]
    by_cases hx : 0 < x
    · simpa [hx, List.getD] using ih
    · simpa [hx, List.getD] using ih

/-- Membership in a row scan. -/
theorem mem_actuator_row_scan {row : List Int} {r width x : ℕ} :
    x ∈ actuator_row_scan row r width ↔
      ∃ ii, ii < width ∧ 0 < row.getD ii 0 ∧ x = r * width + ii := by
  rw [actuator_row_scan, filterMap_guard]
  simp only [List.mem_map, List.mem_filter, List.mem_range, decide_eq_true_eq]
  constructor
  · rintro ⟨ii, ⟨hlt, hpos⟩, rfl⟩
    exact ⟨ii, hlt, hpos, rfl⟩
  · rintro ⟨ii, hlt, hpos, rfl⟩
    exact ⟨ii, ⟨hlt, hpos⟩, rfl⟩

/-- Each row scan has no duplicate entries. -/
theorem actuator_row_scan_nodup (row : List Int) (r width : ℕ) :
    (actuator_row_scan row r width).Nodup := by
  rw [actuator_row_scan, filterMap_guard]
  exact ((List.nodup_range width).filter _).map
    (fun a b h => by omega)

/-- Length of one row scan: the number of positive entries among the
first `width` entries of the row. -/
theorem actuator_row_scan_length (row : List Int) (r width : ℕ)
    (hw : row.length = width) :
    (actuator_row_scan row r width).length =
      row.countP (fun v => decide (0 < v)) := by
  rw [actuator_row_scan, filterMap_guard, List.length_map, ← hw]
  exact length_filter_range_getD row

/-- Mapping a function of `getD` over the index range of a list is
mapping it over the list. -/
theorem map_getD_range {α β : Type} (l : List α) (d : α) (F : α → β) :
    (List.range l.length).map (fun i => F (l.getD i d)) = l.map F := by
  induction l with
  | nil => rfl
  | cons x xs ih =>
    simp only [List.length_cons, List.range_succ_eq_map, List.map_cons,
      List.map_map]
    have hcomp : ((fun i => F ((x :: xs).getD i d)) ∘ Nat.succ) =
        (fun i => F (xs.getD i d)) := by
      funext i
      simp [List.getD_cons_succ]
    rw [List.getD_cons_zero, hcomp, ih]

/-- C4: scanning the mask grid from the last row to the first, left to
right within a row, yields a mapping whose length is the number of
strictly-positive cells, whose entries are pairwise distinct, and all
of whose entries lie below `width * height`. -/
theorem get_actuator_mapping_permutation (grid : List (List Int)) (width : ℕ)
    (hw : ∀ row ∈ grid, row.length = width) :
    ((get_actuator_mapping (FitsFile.image 2 width grid)).2).length =
      (grid.map (fun row => row.countP (fun v => decide (0 < v)))).sum ∧
    ((get_actuator_mapping (FitsFile.image 2 width grid)).2).Nodup ∧
    ∀ x ∈ (get_actuator_mapping (FitsFile.image 2 width grid)).2,
      x < width * grid.length := by
  have hm : (get_actuator_mapping (FitsFile.image 2 width grid)).2 =
      ((List.range grid.length).reverse).flatMap
        (fun r => actuator_row_scan (grid.getD r []) r width) := by
    simp [get_actuator_mapping]
  refine ⟨?_, ?_, ?_⟩
  · rw [hm, List.length_flatMap, List.map_reverse, List.sum_reverse]
    simp only [Function.comp_def]
    have hcong : (List.range grid.length).map
        (fun r => (actuator_row_scan (grid.getD r []) r width).length) =
        (List.range grid.length).map
          (fun r => (grid.getD r []).countP (fun v => decide (0 < v))) := by
      apply List.map_congr_left
      intro r hr
      have hrlt : r < grid.length := List.mem_range.mp hr
      have hrow : grid.getD r [] = grid[r] := List.getD_eq_getElem grid [] hrlt
      exact actuator_row_scan_length _ r width
        (by rw [hrow]; exact hw _ (grid.getElem_mem hrlt))
    rw [hcong, map_getD_range]
  · rw [hm]
    apply List.nodup_flatMap.mpr
    refine ⟨fun r _ => actuator_row_scan_nodup _ r width, ?_⟩
    apply (List.nodup_reverse.mpr (List.nodup_range grid.length)).pairwise_of_forall_ne
    intro a _ b _ hab
    intro x hxa hxb
    obtain ⟨ii, hii, _, rfl⟩ := mem_actuator_row_scan.mp hxa
    obtain ⟨jj, hjj, _, heq⟩ := mem_actuator_row_scan.mp hxb
    have hwpos : 0 < width := by omega
    have ha : (a * width + ii) / width = a := by
      rw [mul_comm, Nat.mul_add_div hwpos, Nat.div_eq_of_lt hii]
      omega
    have hb : (b * width + jj) / width = b := by
      rw [mul_comm, Nat.mul_add_div hwpos, Nat.div_eq_of_lt hjj]
      omega
    apply hab
    rw [← ha, heq, hb]
  · intro x hx
    rw [hm] at hx
    obtain ⟨r, hr, hxs⟩ := List.mem_flatMap.mp hx
    have hrlt : r < grid.length := List.mem_range.mp (List.mem_reverse.mp hr)
    obtain ⟨ii, hii, _, rfl⟩ := mem_actuator_row_scan.mp hxs
    calc r * width + ii < (r + 1) * width := by
          rw [add_mul, one_mul]
          omega
      _ ≤ grid.length * width := mul_le_mul_right' (by omega) width
      _ = width * grid.length := mul_comm _ _

/-- Concrete instantiation of the raster-scan theorem on the grid
`[[1, 0], [0, 2]]`. -/
theorem get_actuator_mapping_permutation_witness :
    (∀ row ∈ ([[1, 0], [0, 2]] : List (List Int)), row.length = 2) ∧
    (((get_actuator_mapping (FitsFile.image 2 2 [[1, 0], [0, 2]])).2).length =
      (([[1, 0], [0, 2]] : List (List Int)).map
        (fun row => row.countP (fun v => decide (0 < v)))).sum ∧
    ((get_actuator_mapping (FitsFile.image 2 2 [[1, 0], [0, 2]])).2).Nodup ∧
    ∀ x ∈ (get_actuator_mapping (FitsFile.image 2 2 [[1, 0], [0, 2]])).2,
      x < 2 * ([[1, 0], [0, 2]] : List (List Int)).length) :=
  ⟨by decide, get_actuator_mapping_permutation [[1, 0], [0, 2]] 2 (by decide)⟩

/-- C5: the loader's status values at its three abnormal inputs.  A
table HDU and a non-2-D image do return the failing status `1`, but an
unopenable file skips the guarded block and the function returns the
success status `0` (after which the caller would use the uninitialized
mapping buffer): the open-failure half of the claim fails on the
code. -/
theorem get_actuator_mapping_status_values :
    (get_actuator_mapping FitsFile.unopenable).1 = 0 ∧
    (get_actuator_mapping FitsFile.table).1 = 1 ∧
    (get_actuator_mapping (FitsFile.image 3 2 [[1, 0]])).1 = 1 :=
  ⟨rfl, rfl, rfl⟩

/-- Sum of a list scaled elementwise on the left. -/
theorem sum_map_mul_const (l : List Scalar) (c : Scalar) :
    (l.map (fun v => c * v)).sum = c * l.sum := by
  induction l with
  | nil => simp
  | cons x xs ih =>
    simp only [List.map_cons, List.sum_cons, ih]
    ring

/-- The two multiplicative stages of `sendCommand` collapse to one
elementwise factor dictated by the `nonorm` / `fractional` switches. -/
theorem sendCommand_conv_stages (d0 : List Scalar) (nonorm fractional : Bool)
    (ms vf : Scalar) :
    (if fractional then (if nonorm then d0 else normalize_inputs d0 vf)
     else microns_to_fractional_stroke
       (if nonorm then d0 else normalize_inputs d0 vf) ms) =
      d0.map (fun v =>
        (if nonorm then 1 else vf) * (if fractional then 1 else 1 / ms) * v) := by
  cases nonorm <;> cases fractional
  · simp only [Bool.false_eq_true, if_false, normalize_inputs,
      microns_to_fractional_stroke, List.map_map]
    apply List.map_congr_left
    intro v _
    simp only [Function.comp_apply]
    ring
  · simp only [Bool.false_eq_true, if_false, if_true, normalize_inputs]
    apply List.map_congr_left
    intro v _
    ring
  · simp only [if_true, Bool.false_eq_true, if_false,
      microns_to_fractional_stroke]
    apply List.map_congr_left
    intro v _
    ring
  · simp only [if_true, one_mul]
    exact (List.map_id d0).symm

/-- The dispatched vector of `clip_to_limits` has the input's length. -/
theorem clip_to_limits_length (l : List Scalar) :
    ((clip_to_limits l).1).length = l.length := by
  rw [clip_to_limits, clip_to_limits_go_fst, List.length_map]

/-- Elementwise view of the dispatched vector of `clip_to_limits`. -/
theorem clip_to_limits_getD (l : List Scalar) (i : ℕ) (h : i < l.length) :
    ((clip_to_limits l).1).getD i 0 = clipStep (l.getD i 0) := by
  rw [clip_to_limits, clip_to_limits_go_fst,
    List.getD_eq_getElem _ _ (by simpa using h), List.getElem_map,
    List.getD_eq_getElem _ _ h]

/-- Elementwise view of `bias_inputs`. -/
theorem bias_inputs_getD (l : List Scalar) (i : ℕ) (h : i < l.length) :
    (bias_inputs l).getD i 0 = l.getD i 0 - l.sum / (l.length : Scalar) := by
  show (l.map (fun x => x - l.sum / (l.length : Scalar))).getD i 0 = _
  rw [List.getD_eq_getElem _ _ (by simpa using h), List.getElem_map,
    List.getD_eq_getElem _ _ h]

/-- Lemma: `bias_inputs` preserves length. -/
theorem bias_inputs_length (l : List Scalar) :
    (bias_inputs l).length = l.length := by
  show (l.map _).length = l.length
  rw [List.length_map]

/-- C2: `sendCommand` extracts `input[i] = frame[mapping[i]]` and
applies the four stages in the fixed source order — volume
normalization iff `¬nonorm`, division by `max_stroke` iff
`¬fractional`, mean subtraction iff `¬nobias`, clipping always and
last.  The closed form shows each switch toggles exactly its own
factor/term and leaves the other enabled stages untouched: the
dispatched value at index `i` is the clamp of the converted input
minus (when biasing) the mean of the converted inputs. -/
theorem sendCommand_stage_order (frame : List Scalar)
    (actuator_mapping : List ℕ) (nbAct : ℕ) (nobias nonorm fractional : Bool)
    (max_stroke volume_factor : Scalar) (i : ℕ) (h : i < nbAct) :
    ((sendCommand frame actuator_mapping nbAct nobias nonorm fractional
        max_stroke volume_factor).1).length = nbAct ∧
    ((sendCommand frame actuator_mapping nbAct nobias nonorm fractional
        max_stroke volume_factor).1).getD i 0 =
      clipStep
        ((if nonorm then 1 else volume_factor) *
            (if fractional then 1 else 1 / max_stroke) *
            frame.getD (actuator_mapping.getD i 0) 0 -
          (if nobias then 0 else
            ((if nonorm then 1 else volume_factor) *
                (if fractional then 1 else 1 / max_stroke) *
                ((List.range nbAct).map
                  (fun j => frame.getD (actuator_mapping.getD j 0) 0)).sum) /
              (nbAct : Scalar))) := by
  have hsc : sendCommand frame actuator_mapping nbAct nobias nonorm fractional
      max_stroke volume_factor =
      clip_to_limits (if nobias then
        (if fractional then
          (if nonorm then
            (List.range nbAct).map
              (fun idx => frame.getD (actuator_mapping.getD idx 0) 0)
           else normalize_inputs ((List.range nbAct).map
              (fun idx => frame.getD (actuator_mapping.getD idx 0) 0))
              volume_factor)
         else microns_to_fractional_stroke
          (if nonorm then
            (List.range nbAct).map
              (fun idx => frame.getD (actuator_mapping.getD idx 0) 0)
           else normalize_inputs ((List.range nbAct).map
              (fun idx => frame.getD (actuator_mapping.getD idx 0) 0))
              volume_factor) max_stroke)
      else bias_inputs
        (if fractional then
          (if nonorm then
            (List.range nbAct).map
              (fun idx => frame.getD (actuator_mapping.getD idx 0) 0)
           else normalize_inputs ((List.range nbAct).map
              (fun idx => frame.getD (actuator_mapping.getD idx 0) 0))
              volume_factor)
         else microns_to_fractional_stroke
          (if nonorm then
            (List.range nbAct).map
              (fun idx => frame.getD (actuator_mapping.getD idx 0) 0)
           else normalize_inputs ((List.range nbAct).map
              (fun idx => frame.getD (actuator_mapping.getD idx 0) 0))
              volume_factor) max_stroke)) := rfl
  rw [hsc, sendCommand_conv_stages]
  set x : ℕ → Scalar :=
    fun idx => frame.getD (actuator_mapping.getD idx 0) 0 with hxdef
  set c : Scalar := (if nonorm then 1 else volume_factor) *
    (if fractional then 1 else 1 / max_stroke) with hcdef
  have hel : (((List.range nbAct).map x).map (fun v => c * v)).length = nbAct := by
    rw [List.length_map, List.length_map, List.length_range]
  have hei : ∀ j, j < nbAct →
      (((List.range nbAct).map x).map (fun v => c * v)).getD j 0 = c * x j := by
    intro j hj
    rw [List.getD_eq_getElem _ _ (by simpa [hel] using hj), List.getElem_map,
      List.getElem_map, List.getElem_range]
  have hes : (((List.range nbAct).map x).map (fun v => c * v)).sum =
      c * ((List.range nbAct).map x).sum := sum_map_mul_const _ c
  cases nobias with
  | true =>
    simp only [if_true]
    refine ⟨by rw [clip_to_limits_length, hel], ?_⟩
    rw [clip_to_limits_getD _ i (by rw [hel]; exact h), hei i h, sub_zero]
  | false =>
    simp only [Bool.false_eq_true, if_false]
    refine ⟨by rw [clip_to_limits_length, bias_inputs_length, hel], ?_⟩
    rw [clip_to_limits_getD _ i
        (by rw [bias_inputs_length, hel]; exact h),
      bias_inputs_getD _ i (by rw [hel]; exact h), hei i h, hes, hel]

/-- Concrete run of the stage-order theorem: frame `[4, 2]`, mapping
`[1, 0]`, both calibration stages and biasing enabled. -/
theorem sendCommand_stage_order_witness :
    (0 : ℕ) < 2 ∧
    ((((sendCommand [4, 2] [1, 0] 2 false false false 2 3).1).length = 2) ∧
     ((sendCommand [4, 2] [1, 0] 2 false false false 2 3).1).getD 0 0 =
       clipStep
         ((if false then 1 else 3) * (if false then 1 else 1 / 2) *
             ([4, 2] : List Scalar).getD (([1, 0] : List ℕ).getD 0 0) 0 -
           (if false then 0 else
             ((if false then 1 else 3) * (if false then 1 else 1 / 2) *
                 ((List.range 2).map
                   (fun j => ([4, 2] : List Scalar).getD
                     (([1, 0] : List ℕ).getD j 0) 0)).sum) /
               ((2 : ℕ) : Scalar)))) :=
  ⟨by decide,
    sendCommand_stage_order [4, 2] [1, 0] 2 false false false 2 3 0 (by decide)⟩

/-- Embeds `parse_calibration_file` (runALPAO.c lines 181-230).  The file is
abstracted at the libc boundary: `none` models `fopen` failing,
`some lines` gives the `strtod` value of each line's leading token.
The source reads every line into a 2-cell `calibvals` buffer and then
unconditionally assigns `calibvals[0]` / `calibvals[1]` to the out
parameters with no check on how many lines were read; `junk0` /
`junk1` stand for the two uninitialized buffer cells.  Returns the C
status (`-1` only when the file cannot be opened, else `0`) and the
assigned `(max_stroke, volume_factor)`. -/
def parse_calibration_file (file : Option (List Scalar))
    (junk0 junk1 : Scalar) : Int × Scalar × Scalar :=
  match file with
  | none => (-1, junk0, junk1)
  | some lines => (0, lines.getD 0 junk0, lines.getD 1 junk1)

/-- The externally visible steps of `controlLoop` startup that C3 is
about. -/
inductive StartupStep
  | parseCalib
  | asdkInitCall
deriving DecidableEq

/-- Start of `controlLoop` (runALPAO.c lines 383-396): run the
calibration loader; on status `-1` return at once — `asdkInit` is
never reached — otherwise continue into device initialization with
the loaded constants. -/
def controlLoop_startup (calfile : Option (List Scalar))
    (junk0 junk1 : Scalar) : List StartupStep × Option (Scalar × Scalar) :=
  let r := parse_calibration_file calfile junk0 junk1
  if r.1 = -1 then ([StartupStep.parseCalib], none)
  else ([StartupStep.parseCalib, StartupStep.asdkInitCall],
    some (r.2.1, r.2.2))

/-- C3 evidence: a calibration file with a single numeric line `3.17`
is accepted.  `parse_calibration_file` returns the success status `0`
and hands back the uninitialized cell (`999` here) as
`volume_factor`, and `controlLoop` goes on to initialize the device;
only an unopenable file produces the failing status and stops before
`asdkInit`. -/
theorem parse_calibration_file_single_line_accepted :
    parse_calibration_file (some [317/100]) 0 999 = (0, 317/100, 999) ∧
    (controlLoop_startup (some [317/100]) 0 999).1 =
      [StartupStep.parseCalib, StartupStep.asdkInitCall] ∧
    (controlLoop_startup none 0 999).1 = [StartupStep.parseCalib] :=
  ⟨rfl, rfl, rfl⟩

/-- Externally observable actions of the control loop (runALPAO.c
lines 450-476): reads of the interrupt flag, returns from
`ImageStreamIO_semwait`, `sendCommand` calls with their result, and
the `asdkReset` / `asdkRelease` shutdown pair. -/
inductive LoopAct
  | obsStop (b : Bool)
  | wake
  | dispatch (ok : Bool)
  | reset
  | release
deriving DecidableEq

/-- The interrupt flag as the loop reads it.  `stop` is set (only ever
`0 → 1`) by the SIGINT handler; the loop's successive flag reads are
numbered, and `interrupt = some k` means the flag first reads as set
at read number `k` (`none`: no interrupt is ever delivered). -/
def stopReads (interrupt : Option ℕ) (r : ℕ) : Bool :=
  match interrupt with
  | none => false
  | some k => k ≤ r

/-- The control loop of runALPAO.c lines 450-476 with its shutdown
tail (lines 468-475).  Each iteration: the `while (!stop)` condition
reads the flag (read index `r`); if set, the loop exits, the device
is reset then released exactly once and the `asdkRelease` status
`relRet` is returned.  Otherwise the loop blocks in
`ImageStreamIO_semwait`; only executions in which each wait is woken
within the modelled `fuel` produce a result (`none`: still blocked or
still iterating).  After the wake the body reads the flag again (read
index `r + 1`): if set, the dispatch is skipped; otherwise
`sendCommand` call number `d` runs, and when it fails
(`sendOk d = false`) the function returns `-1` at once. -/
def controlLoop_run : ℕ → Option ℕ → (ℕ → Bool) → Int → ℕ → ℕ →
    Option (List LoopAct × Int)
  | 0, _, _, _, _, _ => none
  | fuel + 1, interrupt, sendOk, relRet, r, d =>
    if stopReads interrupt r then
      some ([LoopAct.obsStop true, LoopAct.reset, LoopAct.release], relRet)
    else if stopReads interrupt (r + 1) then
      (controlLoop_run fuel interrupt sendOk relRet (r + 2) d).map
        (fun p => (LoopAct.obsStop false :: LoopAct.wake ::
          LoopAct.obsStop true :: p.1, p.2))
    else if sendOk d then
      (controlLoop_run fuel interrupt sendOk relRet (r + 2) (d + 1)).map
        (fun p => (LoopAct.obsStop false :: LoopAct.wake ::
          LoopAct.obsStop false :: LoopAct.dispatch true :: p.1, p.2))
    else
      some ([LoopAct.obsStop false, LoopAct.wake, LoopAct.obsStop false,
        LoopAct.dispatch false], -1)

/-- Once the flag reads as set at the `while` condition, the loop
exits immediately into the single reset-then-release sequence. -/
theorem controlLoop_run_stopped (fuel : ℕ) (k : ℕ) (sendOk : ℕ → Bool)
    (relRet : Int) (r d : ℕ) (hk : k ≤ r) (hf : 0 < fuel) :
    controlLoop_run fuel (some k) sendOk relRet r d =
      some ([LoopAct.obsStop true, LoopAct.reset, LoopAct.release], relRet) := by
  cases fuel with
  | zero => omega
  | succ fuel =>
    have hs : stopReads (some k) r = true := by
      simp [stopReads]
      omega
    rw [controlLoop_run, if_pos hs]

/-- C6: in any completed run of the control loop, once the interrupt
flag is observed set right after a wake from the channel wait, the
remainder of the trace is exactly one more (set) `while`-condition
read followed by reset then release: no further dispatch occurs after
that observation, and the device is reset and released exactly once
in the whole run. -/
theorem controlLoop_interrupt_shutdown (fuel k : ℕ) (sendOk : ℕ → Bool)
    (relRet : Int) (r d : ℕ) (tr : List LoopAct) (c : Int) (i : ℕ)
    (hrun : controlLoop_run fuel (some k) sendOk relRet r d = some (tr, c))
    (hwk : tr[i]? = some LoopAct.wake)
    (hobs : tr[i + 1]? = some (LoopAct.obsStop true)) :
    tr.drop (i + 2) =
      [LoopAct.obsStop true, LoopAct.reset, LoopAct.release] ∧
    tr.count LoopAct.reset = 1 ∧ tr.count LoopAct.release = 1 ∧
    ∀ b, LoopAct.dispatch b ∉ tr.drop (i + 2) := by
  induction fuel generalizing r d tr c i with
  | zero => simp [controlLoop_run] at hrun
  | succ fuel ih =>
    rw [controlLoop_run] at hrun
    by_cases h1 : stopReads (some k) r
    · rw [if_pos h1] at hrun
      injection hrun with hp
      injection hp with htr hc
      subst htr
      rcases i with _ | _ | _ | i <;> simp at hwk
    · rw [if_neg h1] at hrun
      by_cases h2 : stopReads (some k) (r + 1)
      · rw [if_pos h2] at hrun
        obtain ⟨⟨tr1, c1⟩, hrec, heq⟩ := Option.map_eq_some'.mp hrun
        dsimp only at heq
        injection heq with htr hc
        subst htr
        subst hc
        have hf : 0 < fuel := by
          rcases fuel with _ | f
          · simp [controlLoop_run] at hrec
          · omega
        have hk2 : k ≤ r + 2 := by
          have : k ≤ r + 1 := by simpa [stopReads] using h2
          omega
        rw [controlLoop_run_stopped fuel k sendOk relRet (r + 2) d hk2 hf]
          at hrec
        injection hrec with hp
        injection hp with htr1 hc1
        subst htr1
        rcases i with _ | _ | _ | _ | _ | _ | i
        · simp at hwk
        · exact ⟨by decide, by decide, by decide, by decide⟩
        · simp at hwk
        · simp at hwk
        · simp at hwk
        · simp at hwk
        · simp at hwk
      · by_cases h3 : sendOk d
        · rw [if_neg h2, if_pos h3] at hrun
          obtain ⟨⟨tr1, c1⟩, hrec, heq⟩ := Option.map_eq_some'.mp hrun
          dsimp only at heq
          injection heq with htr hc
          subst htr
          subst hc
          rcases i with _ | _ | _ | _ | i
          · simp at hwk
          · simp at hobs
          · simp at hwk
          · simp at hwk
          · have hwk1 : tr1[i]? = some LoopAct.wake := by simpa using hwk
            have hobs1 : tr1[i + 1]? = some (LoopAct.obsStop true) := by
              simpa using hobs
            obtain ⟨hdrop, hcnt1, hcnt2, hnod⟩ :=
              ih (r + 2) (d + 1) tr1 c1 i hrec hwk1 hobs1
            have hdr : (LoopAct.obsStop false :: LoopAct.wake ::
                LoopAct.obsStop false :: LoopAct.dispatch true ::
                tr1).drop (i + 4 + 2) = tr1.drop (i + 2) := by
              have he : i + 4 + 2 = 4 + (i + 2) := by omega
              rw [he, ← List.drop_drop]
              rfl
            refine ⟨?_, ?_, ?_, ?_⟩
            · rw [hdr]
              exact hdrop
            · simpa [List.count_cons] using hcnt1
            · simpa [List.count_cons] using hcnt2
            · rw [hdr]
              exact hnod
        · rw [if_neg h2, if_neg h3] at hrun
          injection hrun with hp
          injection hp with htr hc
          subst htr
          rcases i with _ | _ | _ | _ | i
          · simp at hwk
          · simp at hobs
          · simp at hwk
          · simp at hwk
          · simp at hwk

/-- C7: whenever a `sendCommand` dispatch reports a transmission
failure, the loop returns `-1` at once and the failing dispatch is
the final action of the trace — the command is never retried and
nothing further is dispatched. -/
theorem controlLoop_dispatch_failure_fatal (fuel : ℕ) (interrupt : Option ℕ)
    (sendOk : ℕ → Bool) (relRet : Int) (r d : ℕ) (tr : List LoopAct) (c : Int)
    (i : ℕ)
    (hrun : controlLoop_run fuel interrupt sendOk relRet r d = some (tr, c))
    (hfail : tr[i]? = some (LoopAct.dispatch false)) :
    c = -1 ∧ tr.drop (i + 1) = [] := by
  induction fuel generalizing r d tr c i with
  | zero => simp [controlLoop_run] at hrun
  | succ fuel ih =>
    rw [controlLoop_run] at hrun
    by_cases h1 : stopReads interrupt r
    · rw [if_pos h1] at hrun
      injection hrun with hp
      injection hp with htr hc
      subst htr
      rcases i with _ | _ | _ | i <;> simp at hfail
    · rw [if_neg h1] at hrun
      by_cases h2 : stopReads interrupt (r + 1)
      · rw [if_pos h2] at hrun
        obtain ⟨⟨tr1, c1⟩, hrec, heq⟩ := Option.map_eq_some'.mp hrun
        dsimp only at heq
        injection heq with htr hc
        subst htr
        subst hc
        rcases i with _ | _ | _ | i
        · simp at hfail
        · simp at hfail
        · simp at hfail
        · have hf1 : tr1[i]? = some (LoopAct.dispatch false) := by
            simpa using hfail
          obtain ⟨hc1, hdr⟩ := ih (r + 2) d tr1 c1 i hrec hf1
          refine ⟨hc1, ?_⟩
          have he : i + 3 + 1 = 3 + (i + 1) := by omega
          have h3 : (LoopAct.obsStop false :: LoopAct.wake ::
              LoopAct.obsStop true :: tr1).drop 3 = tr1 := rfl
          rw [he, ← List.drop_drop, h3]
          exact hdr
      · by_cases h3 : sendOk d
        · rw [if_neg h2, if_pos h3] at hrun
          obtain ⟨⟨tr1, c1⟩, hrec, heq⟩ := Option.map_eq_some'.mp hrun
          dsimp only at heq
          injection heq with htr hc
          subst htr
          subst hc
          rcases i with _ | _ | _ | _ | i
          · simp at hfail
          · simp at hfail
          · simp at hfail
          · simp at hfail
          · have hf1 : tr1[i]? = some (LoopAct.dispatch false) := by
              simpa using hfail
            obtain ⟨hc1, hdr⟩ := ih (r + 2) (d + 1) tr1 c1 i hrec hf1
            refine ⟨hc1, ?_⟩
            have he : i + 4 + 1 = 4 + (i + 1) := by omega
            have h4 : (LoopAct.obsStop false :: LoopAct.wake ::
                LoopAct.obsStop false :: LoopAct.dispatch true ::
                tr1).drop 4 = tr1 := rfl
            rw [he, ← List.drop_drop, h4]
            exact hdr
        · rw [if_neg h2, if_neg h3] at hrun
          injection hrun with hp
          injection hp with htr hc
          subst htr
          subst hc
          rcases i with _ | _ | _ | _ | i
          · simp at hfail
          · simp at hfail
          · simp at hfail
          · exact ⟨rfl, rfl⟩
          · simp at hfail

/-- Concrete run of the interrupt-shutdown theorem: the interrupt
arrives before the second flag read, the next wake is consumed, no
dispatch follows, and the device is reset and released once. -/
theorem controlLoop_interrupt_shutdown_witness :
    (controlLoop_run 3 (some 1) (fun _ => true) 0 0 0 =
      some ([LoopAct.obsStop false, LoopAct.wake, LoopAct.obsStop true,
        LoopAct.obsStop true, LoopAct.reset, LoopAct.release], 0)) ∧
    ([LoopAct.obsStop false, LoopAct.wake, LoopAct.obsStop true,
      LoopAct.obsStop true, LoopAct.reset, LoopAct.release] :
      List LoopAct)[1]? = some LoopAct.wake ∧
    ([LoopAct.obsStop false, LoopAct.wake, LoopAct.obsStop true,
      LoopAct.obsStop true, LoopAct.reset, LoopAct.release] :
      List LoopAct)[1 + 1]? = some (LoopAct.obsStop true) ∧
    (([LoopAct.obsStop false, LoopAct.wake, LoopAct.obsStop true,
        LoopAct.obsStop true, LoopAct.reset, LoopAct.release] :
        List LoopAct).drop (1 + 2) =
        [LoopAct.obsStop true, LoopAct.reset, LoopAct.release] ∧
      ([LoopAct.obsStop false, LoopAct.wake, LoopAct.obsStop true,
        LoopAct.obsStop true, LoopAct.reset, LoopAct.release] :
        List LoopAct).count LoopAct.reset = 1 ∧
      ([LoopAct.obsStop false, LoopAct.wake, LoopAct.obsStop true,
        LoopAct.obsStop true, LoopAct.reset, LoopAct.release] :
        List LoopAct).count LoopAct.release = 1 ∧
      ∀ b, LoopAct.dispatch b ∉
        ([LoopAct.obsStop false, LoopAct.wake, LoopAct.obsStop true,
          LoopAct.obsStop true, LoopAct.reset, LoopAct.release] :
          List LoopAct).drop (1 + 2)) :=
  ⟨by decide, by decide, by decide,
    controlLoop_interrupt_shutdown 3 1 (fun _ => true) 0 0 0
      [LoopAct.obsStop false, LoopAct.wake, LoopAct.obsStop true,
        LoopAct.obsStop true, LoopAct.reset, LoopAct.release] 0 1
      (by decide) (by decide) (by decide)⟩

/-- Concrete run of the dispatch-failure theorem: the first dispatch
fails, the loop ends immediately with `-1` and an empty tail. -/
theorem controlLoop_dispatch_failure_fatal_witness :
    (controlLoop_run 1 none (fun _ => false) 0 0 0 =
      some ([LoopAct.obsStop false, LoopAct.wake, LoopAct.obsStop false,
        LoopAct.dispatch false], -1)) ∧
    ([LoopAct.obsStop false, LoopAct.wake, LoopAct.obsStop false,
      LoopAct.dispatch false] : List LoopAct)[3]? =
      some (LoopAct.dispatch false) ∧
    ((-1 : Int) = -1 ∧
      ([LoopAct.obsStop false, LoopAct.wake, LoopAct.obsStop false,
        LoopAct.dispatch false] : List LoopAct).drop (3 + 1) = []) :=
  ⟨by decide, by decide,
    controlLoop_dispatch_failure_fatal 1 none (fun _ => false) 0 0 0
      [LoopAct.obsStop false, LoopAct.wake, LoopAct.obsStop false,
        LoopAct.dispatch false] (-1) 3 (by decide) (by decide)⟩

/-- Shared-memory side effects performed by `initializeSharedMemory`:
flushing all semaphores, writing one float cell, posting all
semaphores. -/
inductive ShmOp
  | semflushAll
  | writeF (i : ℕ) (v : Scalar)
  | sempostAll
deriving DecidableEq

/-- The zero-writing loop of `initializeSharedMemory` (runALPAO.c
lines 94-98): write `0.` to `array.F[i]` for `i = 0 .. n - 1` in
increasing order, starting from prior contents `arr`. -/
def writeZeros (arr : ℕ → Scalar) : ℕ → (ℕ → Scalar) × List ShmOp
  | 0 => (arr, [])
  | n + 1 =>
    let p := writeZeros arr n
    (Function.update p.1 n 0, p.2 ++ [ShmOp.writeF n 0])

/-- Embeds `initializeSharedMemory` (runALPAO.c lines 62-106): create the
image with the requested axis sizes `ax1 × ax2`, flush all semaphores
(`semflush(-1)`), write zeros to the first `11 * 11` cells of the
float array — the loop bound is hard-coded, independent of
`ax1` / `ax2` — then post all semaphores (`sempost(-1)`).  `arr` is
the prior contents of the shared array; returns the array afterwards
and the ordered side-effect trace. -/
def initializeSharedMemory (ax1 ax2 : ℕ) (arr : ℕ → Scalar) :
    (ℕ → Scalar) × List ShmOp :=
  ((writeZeros arr (11 * 11)).1,
    ShmOp.semflushAll :: ((writeZeros arr (11 * 11)).2 ++ [ShmOp.sempostAll]))

/-- Array contents after the zero-writing loop. -/
theorem writeZeros_fst (arr : ℕ → Scalar) (n i : ℕ) :
    (writeZeros arr n).1 i = if i < n then 0 else arr i := by
  induction n with
  | zero => simp [writeZeros]
  | succ n ih =>
    simp only [writeZeros, Function.update_apply, ih]
    by_cases hi : i = n
    · simp [hi]
    · by_cases hilt : i < n
      · simp [hi, hilt, Nat.lt_succ_of_lt hilt]
      · have : ¬ i < n + 1 := by omega
        simp [hi, hilt, this]

/-- Trace of the zero-writing loop: the writes `0 .. n - 1`, in
order. -/
theorem writeZeros_snd (arr : ℕ → Scalar) (n : ℕ) :
    (writeZeros arr n).2 = (List.range n).map (fun i => ShmOp.writeF i 0) := by
  induction n with
  | zero => rfl
  | succ n ih =>
    simp only [writeZeros, ih, List.range_succ, List.map_append]
    rfl

/-- C10: for every requested dimension pair, `initializeSharedMemory`
zeroes exactly the first `11 * 11 = 121` cells of the float array
(every other cell keeps its prior value), and its side-effect trace
is: flush all semaphores, then the 121 writes in increasing order,
then post all semaphores. -/
theorem initializeSharedMemory_zeroes (ax1 ax2 : ℕ) (arr : ℕ → Scalar) :
    (∀ i, (initializeSharedMemory ax1 ax2 arr).1 i =
      if i < 11 * 11 then 0 else arr i) ∧
    (initializeSharedMemory ax1 ax2 arr).2 =
      ShmOp.semflushAll ::
        ((List.range (11 * 11)).map (fun i => ShmOp.writeF i 0) ++
          [ShmOp.sempostAll]) := by
  constructor
  · intro i
    dsimp only [initializeSharedMemory]
    exact writeZeros_fst arr (11 * 11) i
  · dsimp only [initializeSharedMemory]
    rw [writeZeros_snd]
